import Mathlib

/-!
Verification of the plotting pipeline of this repository (src/src/plot/mod.rs and
src/src/fs.rs) against its natural-language specification.  Machine floats (f64) are
embedded as exact rationals; machine integer indices as Nat.
-/

namespace Criterion

/-- Embedding of scale_time (src/src/plot/mod.rs lines 22-34).  The f64 powers of ten
are idealized as exact rationals. -/
def scale_time (ns : ℚ) : ℚ × String :=
  if ns < 1 then (1000, "p")
  else if ns < 1000 then (1, "n")
  else if ns < 1000000 then (1 / 1000, "u")
  else if ns < 1000000000 then (1 / 1000000, "m")
  else (1 / 1000000000, "")

/-- First index i with lb ≤ xs[i], as computed by
xs.iter().enumerate().find(x >= lb) in abs_distributions (src/src/plot/mod.rs line 443)
and rel_distributions (line 551); none models the unwrap panic when no index matches. -/
def firstIdxGe (lb : ℚ) : List ℚ → Option Nat
  | [] => none
  | x :: xs => if lb ≤ x then some 0 else (firstIdxGe lb xs).map (· + 1)

/-- Last index i with xs[i] ≤ ub, as computed by
xs.iter().enumerate().rev().find(x <= ub) in abs_distributions
(src/src/plot/mod.rs lines 444-449) and rel_distributions (lines 552-557);
none models the unwrap panic when no index matches. -/
def lastIdxLe (ub : ℚ) : List ℚ → Option Nat
  | [] => none
  | x :: xs =>
    match lastIdxLe ub xs with
    | some i => some (i + 1)
    | none => if x ≤ ub then some 0 else none

theorem firstIdxGe_le_of_getElem (lb : ℚ) :
    ∀ (xs : List ℚ) (i : Nat) (v : ℚ), xs[i]? = some v → lb ≤ v →
      ∃ s, firstIdxGe lb xs = some s ∧ s ≤ i := by
  intro xs
  induction xs with
  | nil => intro i v h _; simp at h
  | cons x tl ih =>
    intro i v hv hle
    by_cases hx : lb ≤ x
    · exact ⟨0, by simp [firstIdxGe, hx], Nat.zero_le i⟩
    · cases i with
      | zero =>
        simp at hv
        exact absurd (hv ▸ hle) hx
      | succ j =>
        simp at hv
        obtain ⟨s, hs, hsj⟩ := ih j v hv hle
        exact ⟨s + 1, by simp [firstIdxGe, hx, hs], Nat.succ_le_succ hsj⟩

theorem le_lastIdxLe_of_getElem (ub : ℚ) :
    ∀ (xs : List ℚ) (i : Nat) (v : ℚ), xs[i]? = some v → v ≤ ub →
      ∃ e, lastIdxLe ub xs = some e ∧ i ≤ e := by
  intro xs
  induction xs with
  | nil => intro i v h _; simp at h
  | cons x tl ih =>
    intro i v hv hle
    cases i with
    | zero =>
      simp at hv
      cases htl : lastIdxLe ub tl with
      | some k => exact ⟨k + 1, by simp [lastIdxLe, htl], Nat.zero_le _⟩
      | none =>
        refine ⟨0, ?_, Nat.le_refl 0⟩
        simp [lastIdxLe, htl, hv ▸ hle]
    | succ j =>
      simp at hv
      obtain ⟨e, he, hje⟩ := ih j v hv hle
      exact ⟨e + 1, by simp [lastIdxLe, he], Nat.succ_le_succ hje⟩

/-- C1 (corrected): the windowed sub-range computation of abs_distributions and
rel_distributions yields start ≤ end for a sorted curve with lb ≤ ub and both bounds
inside [xs[0], xs[n-1]], provided additionally that some grid point xs[i] lies in
[lb, ub]; start is then at most that index and end at least it. -/
theorem window_start_le_end_of_mem (xs : List ℚ) (lb ub : ℚ)
    (hsort : xs.Sorted (· ≤ ·)) (hlu : lb ≤ ub)
    (hlo : ∀ x0 ∈ xs.head?, x0 ≤ lb) (hhi : ∀ xe ∈ xs.getLast?, ub ≤ xe)
    (i : Nat) (v : ℚ) (hv : xs[i]? = some v) (h1 : lb ≤ v) (h2 : v ≤ ub) :
    ∃ s e, firstIdxGe lb xs = some s ∧ lastIdxLe ub xs = some e ∧ s ≤ e := by
  obtain ⟨s, hs, hsi⟩ := firstIdxGe_le_of_getElem lb xs i v hv h1
  obtain ⟨e, he, hie⟩ := le_lastIdxLe_of_getElem ub xs i v hv h2
  exact ⟨s, e, hs, he, hsi.trans hie⟩

/-- Witness for C1 at the curve xs = [0, 2, 4] with bounds lb = 1, ub = 3:
the grid point 2 lies in the window, and start = end = 1. -/
theorem window_start_le_end_witness :
    ∃ s e, firstIdxGe 1 [(0 : ℚ), 2, 4] = some s ∧
      lastIdxLe 3 [(0 : ℚ), 2, 4] = some e ∧ s ≤ e :=
  window_start_le_end_of_mem [(0 : ℚ), 2, 4] 1 3
    (by decide) (by decide) (by decide) (by decide) 1 2 (by decide) (by decide) (by decide)

/-- Counterexample to C1 as stated: for the sorted curve xs = [0, 10] and bounds
lb = 1, ub = 2 (which satisfy lb ≤ ub and lie inside [xs[0], xs[1]]), the computed
start index is 1 and the computed end index is 0, so start ≤ end fails. -/
theorem window_start_le_end_cex :
    List.Sorted (· ≤ ·) [(0 : ℚ), 10] ∧ (1 : ℚ) ≤ 2 ∧ (0 : ℚ) ≤ 1 ∧ (2 : ℚ) ≤ 10 ∧
      firstIdxGe 1 [(0 : ℚ), 10] = some 1 ∧ lastIdxLe 2 [(0 : ℚ), 10] = some 0 ∧
      ¬ (1 : Nat) ≤ 0 := by
  decide

/-- C2 (corrected): at the boundary input ns = 1, scale_time returns the "n" pairing
with factor 1e0, not the "p" pairing, because the threshold intervals are half-open. -/
theorem scale_time_boundary_one :
    scale_time 1 = (1, "n") ∧ scale_time 1 ≠ (1000, "p") := by
  constructor
  · rfl
  · simp [scale_time]

/-- Counterexample to C2 as stated: at ns = 1e3 the code returns the "u" pairing with
factor 1e-3, not the "n" pairing with factor 1e0. -/
theorem scale_time_boundary_kilo_cex :
    scale_time 1000 = (1 / 1000, "u") ∧ scale_time 1000 ≠ (1, "n") := by
  constructor
  · rfl
  · norm_num [scale_time]

/-- C3: scale_time follows the threshold table exactly: ns < 1 gives (1e3, "p");
1 ≤ ns < 1e3 gives (1e0, "n"); 1e3 ≤ ns < 1e6 gives (1e-3, "u"); 1e6 ≤ ns < 1e9 gives
(1e-6, "m"); otherwise (1e-9, ""); in particular every ns in (0, 1) gives (1e3, "p").
Totality and determinism hold because scale_time is a Lean function. -/
theorem scale_time_table (ns : ℚ) :
    (ns < 1 → scale_time ns = (1000, "p")) ∧
    (1 ≤ ns → ns < 1000 → scale_time ns = (1, "n")) ∧
    (1000 ≤ ns → ns < 1000000 → scale_time ns = (1 / 1000, "u")) ∧
    (1000000 ≤ ns → ns < 1000000000 → scale_time ns = (1 / 1000000, "m")) ∧
    (1000000000 ≤ ns → scale_time ns = (1 / 1000000000, "")) ∧
    (0 < ns → ns < 1 → scale_time ns = (1000, "p")) := by
  refine ⟨fun h => ?_, fun h1 h2 => ?_, fun h1 h2 => ?_, fun h1 h2 => ?_, fun h => ?_,
    fun _ h => ?_⟩
  · simp [scale_time, h]
  · have g1 : ¬ ns < 1 := not_lt.mpr h1
    simp [scale_time, g1, h2]
  · have g1 : ¬ ns < 1 := not_lt.mpr (le_trans (by norm_num : (1 : ℚ) ≤ 1000) h1)
    have g2 : ¬ ns < 1000 := not_lt.mpr h1
    simp [scale_time, g1, g2, h2]
  · have g1 : ¬ ns < 1 := not_lt.mpr (le_trans (by norm_num : (1 : ℚ) ≤ 1000000) h1)
    have g2 : ¬ ns < 1000 := not_lt.mpr (le_trans (by norm_num : (1000 : ℚ) ≤ 1000000) h1)
    have g3 : ¬ ns < 1000000 := not_lt.mpr h1
    simp [scale_time, g1, g2, g3, h2]
  · have g1 : ¬ ns < 1 := not_lt.mpr (le_trans (by norm_num : (1 : ℚ) ≤ 1000000000) h)
    have g2 : ¬ ns < 1000 := not_lt.mpr (le_trans (by norm_num : (1000 : ℚ) ≤ 1000000000) h)
    have g3 : ¬ ns < 1000000 :=
      not_lt.mpr (le_trans (by norm_num : (1000000 : ℚ) ≤ 1000000000) h)
    have g4 : ¬ ns < 1000000000 := not_lt.mpr h
    simp [scale_time, g1, g2, g3, g4]
  · simp [scale_time, h]

/-- Witness for C3 at ns = 1/2, a point of (0, 1): the picosecond pairing results. -/
theorem scale_time_table_witness : scale_time (1 / 2) = (1000, "p") :=
  (scale_time_table (1 / 2)).2.2.2.2.2 one_half_pos one_half_lt_one

/-- Embedding of the interpolated-height computation of abs_distributions
(src/src/plot/mod.rs lines 437-439) and rel_distributions (lines 544-546): n_p is the
first index with xs[i] ≥ p, and the result is
ys[n_p - 1] + (ys[n_p] - ys[n_p - 1]) / (xs[n_p] - xs[n_p - 1]) * (p - xs[n_p - 1]);
none models the panics (find().unwrap() with no match, and the n_p - 1 index underflow
when n_p = 0). -/
def interpHeight (xs ys : List ℚ) (p : ℚ) : Option ℚ :=
  match firstIdxGe p xs with
  | some (i + 1) =>
    match xs[i]?, xs[i + 1]?, ys[i]?, ys[i + 1]? with
    | some x0, some x1, some y0, some y1 => some (y0 + (y1 - y0) / (x1 - x0) * (p - x0))
    | _, _, _, _ => none
  | _ => none

theorem firstIdxGe_self (xs : List ℚ) (hsort : xs.Sorted (· < ·)) :
    ∀ (k : Nat) (v : ℚ), xs[k]? = some v → firstIdxGe v xs = some k := by
  induction xs with
  | nil => intro k v h; simp at h
  | cons x tl ih =>
    intro k v hv
    cases k with
    | zero =>
      simp at hv
      subst hv
      simp [firstIdxGe]
    | succ j =>
      simp at hv
      have hmem : v ∈ tl := by
        rw [List.getElem?_eq_some] at hv
        obtain ⟨hj, hval⟩ := hv
        exact hval ▸ List.getElem_mem hj
      have hxv : x < v := (List.sorted_cons.mp hsort).1 v hmem
      have hnot : ¬ v ≤ x := not_le.mpr hxv
      simp [firstIdxGe, hnot, ih (List.sorted_cons.mp hsort).2 j v hv]

/-- C4 (corrected): for a strictly ascending curve, the interpolated-height
computation of abs_distributions and rel_distributions applied to p = xs[k] returns
exactly ys[k] for every index k with 1 ≤ k < n; at k = 0 the computation fails
(the first index with xs[i] ≥ p is 0 and the n_p - 1 access underflows). -/
theorem interp_exact_at_grid (xs ys : List ℚ) (hsort : xs.Sorted (· < ·))
    (k : Nat) (hk : 1 ≤ k) (x y : ℚ) (hx : xs[k]? = some x) (hy : ys[k]? = some y) :
    interpHeight xs ys x = some y := by
  obtain ⟨j, rfl⟩ : ∃ j, k = j + 1 := ⟨k - 1, by omega⟩
  have hfind : firstIdxGe x xs = some (j + 1) := firstIdxGe_self xs hsort (j + 1) x hx
  have hjx : j + 1 < xs.length := (List.getElem?_eq_some.mp hx).1
  have hjy : j + 1 < ys.length := (List.getElem?_eq_some.mp hy).1
  have hj0x : j < xs.length := Nat.lt_of_succ_lt hjx
  have hj0y : j < ys.length := Nat.lt_of_succ_lt hjy
  have hx0 : xs[j]? = some (xs.get ⟨j, hj0x⟩) := List.getElem?_eq_some.mpr ⟨hj0x, rfl⟩
  have hy0 : ys[j]? = some (ys.get ⟨j, hj0y⟩) := List.getElem?_eq_some.mpr ⟨hj0y, rfl⟩
  have hlt : xs.get ⟨j, hj0x⟩ < x := by
    have := List.pairwise_iff_getElem.mp hsort j (j + 1) hj0x hjx (Nat.lt_succ_self j)
    rw [(List.getElem?_eq_some.mp hx).2] at this
    exact this
  have hne : x - xs.get ⟨j, hj0x⟩ ≠ 0 := sub_ne_zero_of_ne hlt.ne'
  unfold interpHeight
  rw [hfind]
  simp only [hx0, hy0, hx, hy]
  congr 1
  rw [div_mul_cancel₀ _ hne]
  ring

/-- Witness for C4 at xs = [0, 1, 2], ys = [3, 5, 9], k = 1: the interpolated height
at the grid point xs[1] = 1 is exactly ys[1] = 5. -/
theorem interp_exact_at_grid_witness : interpHeight [(0 : ℚ), 1, 2] [3, 5, 9] 1 = some 5 :=
  interp_exact_at_grid [(0 : ℚ), 1, 2] [3, 5, 9] (by decide) 1 (by decide) 1 5
    (by decide) (by decide)

/-- Counterexample to C4 as stated: at k = 0 (a valid index, 0 ≤ k < n) with the
strictly ascending curve xs = [0, 1], ys = [5, 7], the computation fails (returns
none, modelling the n_p - 1 underflow panic) instead of returning ys[0] = 5. -/
theorem interp_grid_zero_cex :
    List.Sorted (· < ·) [(0 : ℚ), 1] ∧ [(0 : ℚ), 1][0]? = some 0 ∧
      [(5 : ℚ), 7][0]? = some 5 ∧ interpHeight [(0 : ℚ), 1] [5, 7] 0 = none ∧
      (none : Option ℚ) ≠ some 5 := by
  decide

/-- usize::MAX on the 64-bit targets the crate runs on, the overflow bound of
str::parse::<usize>. -/
def USIZE_MAX : Nat := 18446744073709551615

/-- Embedding of Rust str::parse::<usize> as invoked at src/src/plot/mod.rs line 717:
an optional leading plus sign, then one or more ASCII digits, failing on any other
character and on overflow past usize::MAX. -/
def parseUsize (s : String) : Option Nat :=
  let cs := match s.data with
            | '+' :: rest => rest
            | cs => cs
  if cs.isEmpty then none
  else if cs.all Char.isDigit then
    let v := cs.foldl (fun acc c => acc * 10 + (c.toNat - 48)) 0
    if v ≤ USIZE_MAX then some v else none
  else none

/-- The confidence interval of an Estimate (estimate module of this repository). -/
structure ConfidenceInterval where
  lower_bound : ℚ
  upper_bound : ℚ

/-- An Estimate as consumed by the plot module: a point estimate plus its confidence
interval. -/
structure Estimate where
  point_estimate : ℚ
  confidence_interval : ConfidenceInterval

/-- The statistics summarize iterates over (src/src/plot/mod.rs lines 747 and 820). -/
inductive Statistic where
  | mean
  | median
  | slope
deriving DecidableEq

/-- The estimates map: one Estimate per statistic, total on the key set. -/
def Estimates := Statistic → Estimate

/-- One summary aggregation entry as built at src/src/plot/mod.rs line 717:
(label, label.parse::<usize>(), estimates, avg_times). -/
structure BenchEntry where
  label : String
  input : Option Nat
  estimates : Estimates
  avg_times : List ℚ

/-- Constructor mirroring line 717: the parse result is always derived from the
label. -/
def benchEntry (label : String) (est : Estimates) (avg : List ℚ) : BenchEntry :=
  ⟨label, parseUsize label, est, avg⟩

/-- The two aggregation modes of summarize. -/
inductive SummaryMode where
  | numeric
  | categorical
deriving DecidableEq

/-- Line 738: benches.iter().all(input.is_ok()). -/
def allInputsOk (benches : List BenchEntry) : Bool :=
  benches.all fun b => b.input.isSome

/-- The group-wide mode decision at src/src/plot/mod.rs line 738. -/
def summaryMode (benches : List BenchEntry) : SummaryMode :=
  if allInputsOk benches then SummaryMode.numeric else SummaryMode.categorical

/-- Ascending order on parsed inputs, the comparator of the numeric-mode sort at
line 745 (the code sorts after unwrapping every parse result; getD 0 is that unwrap,
benign because numeric mode guarantees every input isSome). -/
def inputAscRel (a b : BenchEntry) : Prop := a.input.getD 0 ≤ b.input.getD 0

instance : DecidableRel inputAscRel :=
  fun a b => inferInstanceAs (Decidable (a.input.getD 0 ≤ b.input.getD 0))

instance : IsTotal BenchEntry inputAscRel :=
  ⟨fun a b => Nat.le_total (a.input.getD 0) (b.input.getD 0)⟩

instance : IsTrans BenchEntry inputAscRel :=
  ⟨fun _ _ _ h1 h2 => le_trans h1 h2⟩

/-- Numeric-mode sort (line 745); Rust sort_by is a stable sort, modelled by the
stable insertion sort. -/
def numericSort (benches : List BenchEntry) : List BenchEntry :=
  benches.insertionSort inputAscRel

/-- Placeholder estimates for entries whose estimate values are irrelevant. -/
def dummyEstimates : Estimates := fun _ => ⟨0, ⟨0, 0⟩⟩

/-- The all-numeric example group of the claim: labels "1", "2", "4", "8". -/
def numericGroup : List BenchEntry :=
  ["1", "2", "4", "8"].map fun l => benchEntry l dummyEstimates []

/-- The categorical example group of the claim: labels "a", "b". -/
def categoricalGroup : List BenchEntry :=
  ["a", "b"].map fun l => benchEntry l dummyEstimates []

/-- C5: mode selection is all-or-nothing: numeric mode is selected iff every entry's
label parses as a non-negative number; in numeric mode the entries are sorted
ascending by parsed input (labels "1", "2", "4", "8" give parsed order [1, 2, 4, 8]);
one unparseable label (labels "a", "b") forces the whole group into categorical
mode. -/
theorem summary_mode_selection :
    (∀ benches : List BenchEntry,
      (summaryMode benches = SummaryMode.numeric ↔ ∀ b ∈ benches, b.input.isSome = true)) ∧
    (∀ benches : List BenchEntry, summaryMode benches = SummaryMode.numeric →
      List.Sorted inputAscRel (numericSort benches) ∧ (numericSort benches).Perm benches) ∧
    summaryMode numericGroup = SummaryMode.numeric ∧
    (numericSort numericGroup).map (fun b => b.input) = [some 1, some 2, some 4, some 8] ∧
    summaryMode categoricalGroup = SummaryMode.categorical := by
  refine ⟨fun benches => ?_,
    fun benches _ => ⟨List.sorted_insertionSort inputAscRel benches,
      List.perm_insertionSort inputAscRel benches⟩,
    by decide, by decide, by decide⟩
  have hcase : summaryMode benches = SummaryMode.numeric ↔ allInputsOk benches = true := by
    by_cases h : allInputsOk benches <;> simp [summaryMode, h]
  rw [hcase, allInputsOk, List.all_eq_true]

/-- Witness for C5 at the group with labels "1", "2", "4", "8": the numeric-mode sort
is sorted by parsed input and is a permutation of the group. -/
theorem summary_mode_selection_witness :
    List.Sorted inputAscRel (numericSort numericGroup) ∧
      (numericSort numericGroup).Perm numericGroup :=
  summary_mode_selection.2.1 numericGroup (by decide)

/-- Descending order on a statistic's point estimates, the comparator of the
categorical-mode sort at src/src/plot/mod.rs lines 823-827
(b.partial_cmp(&a) reverses the order). -/
def statDescRel (stat : Statistic) (a b : BenchEntry) : Prop :=
  (b.estimates stat).point_estimate ≤ (a.estimates stat).point_estimate

instance (stat : Statistic) : DecidableRel (statDescRel stat) :=
  fun a b =>
    inferInstanceAs (Decidable ((b.estimates stat).point_estimate ≤
      (a.estimates stat).point_estimate))

instance (stat : Statistic) : IsTotal BenchEntry (statDescRel stat) :=
  ⟨fun a b => le_total (b.estimates stat).point_estimate (a.estimates stat).point_estimate⟩

instance (stat : Statistic) : IsTrans BenchEntry (statDescRel stat) :=
  ⟨fun _ _ _ h1 h2 => le_trans h2 h1⟩

/-- Categorical-mode sort of one statistic pass (lines 823-827), a stable descending
sort by point estimate, modelled by the stable insertion sort. -/
def categoricalSort (stat : Statistic) (benches : List BenchEntry) : List BenchEntry :=
  benches.insertionSort (statDescRel stat)

/-- The points vector of a pass (lines 829-832). -/
def pointEstimates (stat : Statistic) (benches : List BenchEntry) : List ℚ :=
  benches.map fun b => (b.estimates stat).point_estimate

/-- Round to the nearest integer, ties to even, the rounding of Rust float formatting
with an explicit precision; used to model format with two decimals. -/
def roundHalfEven (q : ℚ) : ℤ :=
  let f := ⌊q⌋
  let r := q - (f : ℚ)
  if r < 1 / 2 then f
  else if 1 / 2 < r then f + 1
  else if f % 2 = 0 then f else f + 1

/-- Embedding of the Rust formatting directive with width 0 and precision 2 applied
at src/src/plot/mod.rs line 852: the value rendered with exactly two decimal
places. -/
def formatF2 (x : ℚ) : String :=
  let n := roundHalfEven (x * 100)
  let sign := if n < 0 then "-" else ""
  let m := n.natAbs
  let frac := m % 100
  sign ++ toString (m / 100) ++ "." ++ (if frac < 10 then "0" else "") ++ toString frac

/-- The relative-time tic strings of a categorical pass (lines 849-853): each sorted
point estimate divided by the last point of the descending sort, formatted to two
decimals. -/
def relStrings (stat : Statistic) (benches : List BenchEntry) : List String :=
  let pts := pointEstimates stat (categoricalSort stat benches)
  let mn := pts.getLast?.getD 0
  pts.map fun x => formatF2 (x / mn)

theorem getLast_le_of_sorted_desc :
    ∀ (l : List ℚ), List.Sorted (fun a b : ℚ => b ≤ a) l → ∀ p ∈ l, l.getLast?.getD 0 ≤ p := by
  intro l
  induction l with
  | nil => intro _ p hp; simp at hp
  | cons a tl ih =>
    intro hsort p hp
    cases tl with
    | nil =>
      simp at hp
      subst hp
      simp
    | cons b tl2 =>
      rw [List.getLast?_cons_cons]
      have hne : (b :: tl2) ≠ [] := by simp
      rcases List.mem_cons.mp hp with rfl | hmem
      · have hlast : (b :: tl2).getLast hne ∈ b :: tl2 := List.getLast_mem hne
        have hrel := (List.sorted_cons.mp hsort).1 _ hlast
        rw [List.getLast?_eq_getLast _ hne]
        exact hrel
      · exact ih (List.sorted_cons.mp hsort).2 p hmem

theorem roundHalfEven_intCast (n : ℤ) : roundHalfEven ((n : ℤ) : ℚ) = n := by
  simp only [roundHalfEven]
  rw [Int.floor_intCast]
  norm_num

theorem formatF2_four : formatF2 4 = "4.00" := by
  have hr : roundHalfEven ((4 : ℚ) * 100) = 400 := by
    rw [show ((4 : ℚ) * 100) = ((400 : ℤ) : ℚ) by norm_num]
    exact roundHalfEven_intCast 400
  simp only [formatF2, hr]
  decide

theorem formatF2_two : formatF2 2 = "2.00" := by
  have hr : roundHalfEven ((2 : ℚ) * 100) = 200 := by
    rw [show ((2 : ℚ) * 100) = ((200 : ℤ) : ℚ) by norm_num]
    exact roundHalfEven_intCast 200
  simp only [formatF2, hr]
  decide

theorem formatF2_one : formatF2 1 = "1.00" := by
  have hr : roundHalfEven ((1 : ℚ) * 100) = 100 := by
    rw [show ((1 : ℚ) * 100) = ((100 : ℤ) : ℚ) by norm_num]
    exact roundHalfEven_intCast 100
  simp only [formatF2, hr]
  decide

/-- Estimates whose point estimate and bounds are all the given value. -/
def constEstimates (q : ℚ) : Estimates := fun _ => ⟨q, ⟨q, q⟩⟩

/-- The example group of the claim: entries with point estimates 10, 5 and 20. -/
def exampleGroup : List BenchEntry :=
  [benchEntry "x" (constEstimates 10) [], benchEntry "y" (constEstimates 5) [],
    benchEntry "z" (constEstimates 20) []]

/-- C6: in a categorical pass the emitted relative-time string of each entry is its
point estimate divided by the minimum point estimate of the current sort, formatted
to two decimals: the divisor (the last point of the descending sort) is a member of
the point-estimate list and a lower bound of it, and every emitted string is the
formatted quotient; for point estimates [10, 5, 20] the descending sort is
[20, 10, 5], the minimum is 5, and the strings are "4.00", "2.00", "1.00" — so the
entries with estimates 10, 5, 20 get "2.00", "1.00", "4.00" respectively. -/
theorem categorical_relative_ratios :
    (∀ (stat : Statistic) (benches : List BenchEntry), benches ≠ [] →
      (pointEstimates stat (categoricalSort stat benches)).getLast?.getD 0
          ∈ pointEstimates stat benches ∧
      (∀ p ∈ pointEstimates stat benches,
        (pointEstimates stat (categoricalSort stat benches)).getLast?.getD 0 ≤ p) ∧
      relStrings stat benches =
        (pointEstimates stat (categoricalSort stat benches)).map
          (fun x => formatF2
            (x / (pointEstimates stat (categoricalSort stat benches)).getLast?.getD 0))) ∧
    pointEstimates Statistic.median (categoricalSort Statistic.median exampleGroup) =
      [20, 10, 5] ∧
    relStrings Statistic.median exampleGroup = ["4.00", "2.00", "1.00"] := by
  refine ⟨fun stat benches hne => ?_, by decide, ?_⟩
  · have hsorted : List.Sorted (statDescRel stat) (categoricalSort stat benches) :=
      List.sorted_insertionSort (statDescRel stat) benches
    have hperm : (categoricalSort stat benches).Perm benches :=
      List.perm_insertionSort (statDescRel stat) benches
    have hptsPerm : (pointEstimates stat (categoricalSort stat benches)).Perm
        (pointEstimates stat benches) := by
      simp only [pointEstimates]
      exact hperm.map _
    have hptsSorted : List.Sorted (fun a b : ℚ => b ≤ a)
        (pointEstimates stat (categoricalSort stat benches)) := by
      simp only [pointEstimates]
      exact List.pairwise_map.mpr (hsorted.imp fun hab => hab)
    have hLne : pointEstimates stat (categoricalSort stat benches) ≠ [] := by
      intro h0
      apply hne
      have hlen := hptsPerm.length_eq
      rw [h0] at hlen
      simp [pointEstimates] at hlen
      exact List.length_eq_zero.mp hlen.symm
    have hmem : (pointEstimates stat (categoricalSort stat benches)).getLast?.getD 0
        ∈ pointEstimates stat (categoricalSort stat benches) := by
      rw [List.getLast?_eq_getLast _ hLne]
      exact List.getLast_mem hLne
    refine ⟨hptsPerm.mem_iff.mp hmem, fun p hp => ?_, rfl⟩
    exact getLast_le_of_sorted_desc _ hptsSorted p (hptsPerm.mem_iff.mpr hp)
  · have hpts : pointEstimates Statistic.median (categoricalSort Statistic.median
        exampleGroup) = [20, 10, 5] := by decide
    have hmn : (pointEstimates Statistic.median (categoricalSort Statistic.median
        exampleGroup)).getLast?.getD 0 = 5 := by decide
    have hdiv1 : formatF2 ((20 : ℚ) / 5) = "4.00" := by
      rw [show ((20 : ℚ) / 5) = 4 by norm_num]; exact formatF2_four
    have hdiv2 : formatF2 ((10 : ℚ) / 5) = "2.00" := by
      rw [show ((10 : ℚ) / 5) = 2 by norm_num]; exact formatF2_two
    have hdiv3 : formatF2 ((5 : ℚ) / 5) = "1.00" := by
      rw [show ((5 : ℚ) / 5) = 1 by norm_num]; exact formatF2_one
    simp only [relStrings]
    simp only [hmn]
    simp only [hpts]
    simp only [List.map_cons, List.map_nil]
    rw [hdiv1, hdiv2, hdiv3]

/-- Witness for C6 at the example group: the divisor is a member of and a lower bound
of the point-estimate list. -/
theorem categorical_relative_ratios_witness :
    (pointEstimates Statistic.median (categoricalSort Statistic.median
        exampleGroup)).getLast?.getD 0 ∈ pointEstimates Statistic.median exampleGroup ∧
      (∀ p ∈ pointEstimates Statistic.median exampleGroup,
        (pointEstimates Statistic.median (categoricalSort Statistic.median
          exampleGroup)).getLast?.getD 0 ≤ p) :=
  ⟨(categorical_relative_ratios.1 Statistic.median exampleGroup (by simp [exampleGroup])).1,
    (categorical_relative_ratios.1 Statistic.median exampleGroup
      (by simp [exampleGroup])).2.1⟩

/-- The outcome of a computation that may panic: fail! aborts the whole program. -/
inductive ProgramResult (α : Type) where
  | ok (val : α)
  | panicked (msg : String)

/-- Embedding of fs::mkdirp (src/src/fs.rs lines 3-8): on any mkdir_recursive error
it invokes the fail! macro, which panics and aborts the program; on success it
returns unit. The filesystem is abstracted as the Boolean outcome of
mkdir_recursive. -/
def mkdirp (mkdirSucceeds : Bool) : ProgramResult Unit :=
  if mkdirSucceeds then ProgramResult.ok () else ProgramResult.panicked "mkdir failed"

/-- Control-flow skeleton of one generation pass of summarize
(src/src/plot/mod.rs lines 700-737): fewer than 2 loadable benches skip the
generation with no output; otherwise the summary directory is created by fs::mkdirp
before any chart is emitted, and a panic in mkdirp propagates, aborting the program.
The chart-building tail is abstracted as a function producing the chart list. -/
def summarizeGeneration (benches : List BenchEntry) (mkdirSucceeds : Bool)
    (charts : List BenchEntry → List String) : ProgramResult (List String) :=
  if benches.length < 2 then ProgramResult.ok []
  else
    match mkdirp mkdirSucceeds with
    | ProgramResult.panicked msg => ProgramResult.panicked msg
    | ProgramResult.ok _ => ProgramResult.ok (charts benches)

/-- C7 (code_bug): with two loadable entries and a failing directory creation,
summarize does not return an empty result for the generation: fs::mkdirp invokes the
fail! macro, so the whole program aborts, contradicting both the spec and the caller
at src/src/plot/mod.rs lines 733-736, whose try_else_return expects a Result to turn
into an early empty return. -/
theorem mkdirp_failure_panics :
    summarizeGeneration [benchEntry "a" dummyEstimates [], benchEntry "b" dummyEstimates []]
        false (fun _ => []) = ProgramResult.panicked "mkdir failed" ∧
      ∀ msg, (ProgramResult.panicked msg : ProgramResult (List String)) ≠
        ProgramResult.ok [] := by
  exact ⟨rfl, fun msg h => ProgramResult.noConfusion h⟩

/-- The outlier classification of one sample point, the label taxonomy of the stats
collaborator consumed by pdf. -/
inductive OutlierLabel where
  | notOutlier
  | lowSevere
  | lowMild
  | highMild
  | highSevere
deriving DecidableEq

/-- Modelled from the spec: the is_outlier label predicate of the stats collaborator
(its source is not under src); per the spec taxonomy, every label other than clean is
an outlier. -/
def OutlierLabel.is_outlier : OutlierLabel → Bool
  | OutlierLabel.notOutlier => false
  | _ => true

/-- Modelled from the spec: the is_mild label predicate of the stats collaborator
(its source is not under src); mild means mild-low or mild-high. -/
def OutlierLabel.is_mild : OutlierLabel → Bool
  | OutlierLabel.lowMild => true
  | OutlierLabel.highMild => true
  | _ => false

/-- Modelled from the spec: the is_severe label predicate of the stats collaborator
(its source is not under src); severe means severe-low or severe-high. -/
def OutlierLabel.is_severe : OutlierLabel → Bool
  | OutlierLabel.lowSevere => true
  | OutlierLabel.highSevere => true
  | _ => false

/-- The clean series of the pdf chart (src/src/plot/mod.rs lines 192-220): the times
of the points whose label is not an outlier, in input order. -/
def cleanXs (s : List (ℚ × OutlierLabel)) : List ℚ :=
  s.filterMap fun p => if p.2.is_outlier then none else some p.1

/-- The mild-outlier series of the pdf chart (lines 221-251). -/
def mildXs (s : List (ℚ × OutlierLabel)) : List ℚ :=
  s.filterMap fun p => if p.2.is_mild then some p.1 else none

/-- The severe-outlier series of the pdf chart (lines 252-282). -/
def severeXs (s : List (ℚ × OutlierLabel)) : List ℚ :=
  s.filterMap fun p => if p.2.is_severe then some p.1 else none

theorem partition_length (s : List (ℚ × OutlierLabel)) :
    (cleanXs s).length + (mildXs s).length + (severeXs s).length = s.length := by
  induction s with
  | nil => rfl
  | cons p tl ih =>
    obtain ⟨t, l⟩ := p
    simp only [cleanXs, mildXs, severeXs] at ih ⊢
    cases l <;>
      simp [List.filterMap_cons, OutlierLabel.is_outlier, OutlierLabel.is_mild,
        OutlierLabel.is_severe] at ih ⊢ <;>
      omega

theorem filterMap_guard_sublist (f : ℚ × OutlierLabel → Option ℚ)
    (hf : ∀ p, f p = none ∨ f p = some p.1) :
    ∀ s : List (ℚ × OutlierLabel), (s.filterMap f).Sublist (s.map Prod.fst) := by
  intro s
  induction s with
  | nil => simp
  | cons p tl ih =>
    rcases hf p with h | h
    · simp only [List.filterMap_cons, h, List.map_cons]
      exact ih.cons _
    · simp only [List.filterMap_cons, h, List.map_cons]
      exact ih.cons₂ _

/-- C8: the outlier partition of the pdf chart is total and exclusive: the three
series lengths add to the input length, each series is a sublist of the input points
(original ordering preserved, no duplication), and every label satisfies exactly one
of not-outlier, mild, severe. -/
theorem pdf_outlier_partition (s : List (ℚ × OutlierLabel)) :
    (cleanXs s).length + (mildXs s).length + (severeXs s).length = s.length ∧
    (cleanXs s).Sublist (s.map Prod.fst) ∧
    (mildXs s).Sublist (s.map Prod.fst) ∧
    (severeXs s).Sublist (s.map Prod.fst) ∧
    ∀ l : OutlierLabel,
      ((if l.is_outlier then 0 else 1) + (if l.is_mild then 1 else 0) +
        (if l.is_severe then 1 else 0) : Nat) = 1 := by
  refine ⟨partition_length s, ?_, ?_, ?_, fun l => by cases l <;> rfl⟩
  · exact filterMap_guard_sublist _
      (fun p => by cases h : p.2.is_outlier <;> simp [h]) s
  · exact filterMap_guard_sublist _
      (fun p => by cases h : p.2.is_mild <;> simp [h]) s
  · exact filterMap_guard_sublist _
      (fun p => by cases h : p.2.is_severe <;> simp [h]) s

/-- Sample::max of the stats collaborator applied to the KDE y values: the maximum of
a non-empty list as a left fold (the value on the empty list is irrelevant here). -/
def sampleMax : List ℚ → ℚ
  | [] => 0
  | x :: xs => xs.foldl max x

/-- The per-entry violin normalization (src/src/plot/mod.rs lines 911-918): every y
value of the KDE curve is divided by the maximum y value of that curve. -/
def normalizeKde (ys : List ℚ) : List ℚ :=
  ys.map fun y => y / sampleMax ys

theorem foldl_max_bounds (l : List ℚ) :
    ∀ a : ℚ, a ≤ l.foldl max a ∧ ∀ y ∈ l, y ≤ l.foldl max a := by
  induction l with
  | nil => intro a; exact ⟨le_refl a, by simp⟩
  | cons x tl ih =>
    intro a
    have hrec := ih (max a x)
    refine ⟨le_trans (le_max_left a x) hrec.1, ?_⟩
    intro y hy
    rcases List.mem_cons.mp hy with rfl | hy2
    · exact le_trans (le_max_right a y) hrec.1
    · exact hrec.2 y hy2

theorem foldl_max_mem (l : List ℚ) : ∀ a : ℚ, l.foldl max a = a ∨ l.foldl max a ∈ l := by
  induction l with
  | nil => intro a; exact Or.inl rfl
  | cons x tl ih =>
    intro a
    rcases ih (max a x) with h | h
    · rcases max_choice a x with hm | hm
      · exact Or.inl (by rw [List.foldl_cons, h, hm])
      · refine Or.inr ?_
        rw [List.foldl_cons, h, hm]
        exact List.mem_cons_self x tl
    · exact Or.inr (List.mem_cons_of_mem x h)

theorem sampleMax_mem (l : List ℚ) (h : l ≠ []) : sampleMax l ∈ l := by
  cases l with
  | nil => exact absurd rfl h
  | cons x tl =>
    rcases foldl_max_mem tl x with h2 | h2
    · rw [sampleMax, h2]
      exact List.mem_cons_self x tl
    · exact List.mem_cons_of_mem x h2

theorem le_sampleMax (l : List ℚ) (y : ℚ) (hy : y ∈ l) : y ≤ sampleMax l := by
  cases l with
  | nil => exact absurd hy (List.not_mem_nil y)
  | cons x tl =>
    rcases List.mem_cons.mp hy with rfl | hy2
    · exact (foldl_max_bounds tl y).1
    · exact (foldl_max_bounds tl x).2 y hy2

/-- C9: violin plot peak normalization: for a KDE curve with a positive maximum y
value, dividing every y by the maximum yields a curve whose maximum is exactly 1
(exact rational arithmetic; the claim's floating tolerance is not needed). -/
theorem violin_peak_normalized (ys : List ℚ) (hne : ys ≠ []) (hpos : 0 < sampleMax ys) :
    sampleMax (normalizeKde ys) = 1 := by
  have hm := sampleMax_mem ys hne
  have h1 : (1 : ℚ) ∈ normalizeKde ys :=
    List.mem_map.mpr ⟨sampleMax ys, hm, div_self (ne_of_gt hpos)⟩
  have hnne : normalizeKde ys ≠ [] := fun h0 => hne (List.map_eq_nil_iff.mp h0)
  have hub : ∀ z ∈ normalizeKde ys, z ≤ 1 := by
    intro z hz
    obtain ⟨y, hy, rfl⟩ := List.mem_map.mp hz
    exact (div_le_one hpos).mpr (le_sampleMax ys y hy)
  exact le_antisymm (hub _ (sampleMax_mem _ hnne)) (le_sampleMax _ 1 h1)

/-- Witness for C9 at the one-point curve ys = [2]: the normalized maximum is 1. -/
theorem violin_peak_normalized_witness : sampleMax (normalizeKde [(2 : ℚ)]) = 1 :=
  violin_peak_normalized [(2 : ℚ)] (by simp) (by decide)

/-- The positive KDE x values of all entries, in order: the flat_map and filter at
src/src/plot/mod.rs lines 925-927, taking the x component of every KDE pair. -/
def positiveXs (kdes : List (List ℚ × List ℚ)) : List ℚ :=
  ((kdes.map Prod.fst).flatten).filter fun x => decide (0 < x)

/-- The min/max scan over the remaining iterator (lines 932-938): each later element
updates min when smaller, else max when larger. -/
def minMaxLoop : ℚ × ℚ → List ℚ → ℚ × ℚ
  | mm, [] => mm
  | (mn, mx), e :: rest =>
    minMaxLoop (if e < mn then (e, mx) else if mx < e then (mn, e) else (mn, mx)) rest

/-- The violin x-range computation (lines 925-938): the first positive x value seeds
the (min, max) pair (none models the xs.next().unwrap() panic when no x value is
positive), then the loop scans the rest. -/
def violinXMinMax (kdes : List (List ℚ × List ℚ)) : Option (ℚ × ℚ) :=
  match positiveXs kdes with
  | [] => none
  | first :: rest => some (minMaxLoop (first, first) rest)

theorem minMaxLoop_spec :
    ∀ (l : List ℚ) (mn mx : ℚ), mn ≤ mx →
      (minMaxLoop (mn, mx) l).1 ≤ (minMaxLoop (mn, mx) l).2 ∧
      ((minMaxLoop (mn, mx) l).1 = mn ∨ (minMaxLoop (mn, mx) l).1 ∈ l) ∧
      ((minMaxLoop (mn, mx) l).2 = mx ∨ (minMaxLoop (mn, mx) l).2 ∈ l) ∧
      (minMaxLoop (mn, mx) l).1 ≤ mn ∧ mx ≤ (minMaxLoop (mn, mx) l).2 ∧
      ∀ y ∈ l, (minMaxLoop (mn, mx) l).1 ≤ y ∧ y ≤ (minMaxLoop (mn, mx) l).2 := by
  intro l
  induction l with
  | nil =>
    intro mn mx h
    simp [minMaxLoop, h]
  | cons e rest ih =>
    intro mn mx h
    by_cases h1 : e < mn
    · have hinv : e ≤ mx := le_trans (le_of_lt h1) h
      obtain ⟨ha, hb, hc, hd, hex, hall⟩ := ih e mx hinv
      simp only [minMaxLoop, if_pos h1]
      refine ⟨ha, ?_, ?_, ?_, hex, ?_⟩
      · refine Or.inr ?_
        rcases hb with hb | hb
        · exact List.mem_cons.mpr (Or.inl hb)
        · exact List.mem_cons_of_mem e hb
      · rcases hc with hc | hc
        · exact Or.inl hc
        · exact Or.inr (List.mem_cons_of_mem e hc)
      · exact le_trans hd (le_of_lt h1)
      · intro y hy
        rcases List.mem_cons.mp hy with rfl | hy2
        · exact ⟨hd, le_trans hinv hex⟩
        · exact hall y hy2
    · by_cases h2 : mx < e
      · have hmne : mn ≤ e := le_trans h (le_of_lt h2)
        obtain ⟨ha, hb, hc, hd, hex, hall⟩ := ih mn e hmne
        simp only [minMaxLoop, if_neg h1, if_pos h2]
        refine ⟨ha, ?_, ?_, hd, ?_, ?_⟩
        · rcases hb with hb | hb
          · exact Or.inl hb
          · exact Or.inr (List.mem_cons_of_mem e hb)
        · refine Or.inr ?_
          rcases hc with hc | hc
          · exact List.mem_cons.mpr (Or.inl hc)
          · exact List.mem_cons_of_mem e hc
        · exact le_trans (le_of_lt h2) hex
        · intro y hy
          rcases List.mem_cons.mp hy with rfl | hy2
          · exact ⟨le_trans hd hmne, hex⟩
          · exact hall y hy2
      · obtain ⟨ha, hb, hc, hd, hex, hall⟩ := ih mn mx h
        simp only [minMaxLoop, if_neg h1, if_neg h2]
        refine ⟨ha, ?_, ?_, hd, hex, ?_⟩
        · rcases hb with hb | hb
          · exact Or.inl hb
          · exact Or.inr (List.mem_cons_of_mem e hb)
        · rcases hc with hc | hc
          · exact Or.inl hc
          · exact Or.inr (List.mem_cons_of_mem e hc)
        · intro y hy
          rcases List.mem_cons.mp hy with rfl | hy2
          · exact ⟨le_trans hd (not_lt.mp h1), le_trans (not_lt.mp h2) hex⟩
          · exact hall y hy2

/-- C10: the violin x-axis range is derived from only the strictly positive KDE x
values: the computation yields no result exactly when every x value of every entry is
non-positive (the code unwraps an empty iterator there, so a positive x value is a
precondition for summarize to complete), and when it yields (mn, mx) these are
members of, and the minimum and maximum of, the positive x values. -/
theorem violin_min_max_positive (kdes : List (List ℚ × List ℚ)) :
    (violinXMinMax kdes = none ↔ ∀ x ∈ (kdes.map Prod.fst).flatten, ¬ (0 < x)) ∧
    (∀ mn mx, violinXMinMax kdes = some (mn, mx) →
      mn ∈ positiveXs kdes ∧ mx ∈ positiveXs kdes ∧
        ∀ y ∈ positiveXs kdes, mn ≤ y ∧ y ≤ mx) := by
  constructor
  · constructor
    · intro h x hx hpos
      cases hp : positiveXs kdes with
      | nil =>
        have hmem : x ∈ positiveXs kdes := by
          rw [positiveXs, List.mem_filter]
          exact ⟨hx, by simp [hpos]⟩
        rw [hp] at hmem
        exact absurd hmem (List.not_mem_nil x)
      | cons a rest => simp [violinXMinMax, hp] at h
    · intro h
      have hp : positiveXs kdes = [] := by
        rw [positiveXs, List.filter_eq_nil_iff]
        intro a ha
        simpa using h a ha
      simp [violinXMinMax, hp]
  · intro mn mx heq
    cases hp : positiveXs kdes with
    | nil => simp [violinXMinMax, hp] at heq
    | cons a rest =>
      simp only [violinXMinMax, hp, Option.some.injEq] at heq
      obtain ⟨hab, hmem1, hmem2, hlem, hgem, hall⟩ := minMaxLoop_spec rest a a (le_refl a)
      rw [heq] at hab hmem1 hmem2 hlem hgem hall
      refine ⟨?_, ?_, ?_⟩
      · rcases hmem1 with hm | hm
        · exact List.mem_cons.mpr (Or.inl hm)
        · exact List.mem_cons_of_mem a hm
      · rcases hmem2 with hm | hm
        · exact List.mem_cons.mpr (Or.inl hm)
        · exact List.mem_cons_of_mem a hm
      · intro y hy
        rcases List.mem_cons.mp hy with rfl | hy2
        · exact ⟨hlem, hgem⟩
        · exact hall y hy2

/-- Witness for C10 at the single KDE curve with x values [0, 3, 2]: the positive
values are [3, 2], and the computed pair (2, 3) brackets them. -/
theorem violin_min_max_positive_witness :
    (2 : ℚ) ∈ positiveXs [([(0 : ℚ), 3, 2], [0, 0, 0])] ∧
      (3 : ℚ) ∈ positiveXs [([(0 : ℚ), 3, 2], [0, 0, 0])] ∧
      ∀ y ∈ positiveXs [([(0 : ℚ), 3, 2], [0, 0, 0])], 2 ≤ y ∧ y ≤ 3 :=
  (violin_min_max_positive [([(0 : ℚ), 3, 2], [0, 0, 0])]).2 2 3 (by decide)

end Criterion
